import Mathlib

/-!
Shallow embedding of `src/Enigma.py` (class `Enigma`), an implementation of
the Enigma cipher machine.  Python strings are modelled as `List Char`,
Python ints as `Int` (arbitrary precision, like Python), fallible code
(IndexError / ValueError / TypeError on `ord`) as `Option`, and the
validating setters as `Except PyError Enigma`.  Python `%` on ints agrees
with Lean `Int.emod` whenever the modulus is positive, which is the only
case the source reaches.
-/

/-- Error kinds raised by the source: `InputError` is the validation error
class defined at the bottom of the file; the others are Python builtins. -/
inductive PyError where
  | inputError : PyError
  | indexError : PyError
  | valueError : PyError
deriving DecidableEq, Repr

instance {ε α : Type} [DecidableEq ε] [DecidableEq α] :
    DecidableEq (Except ε α) := fun x y =>
  match x, y with
  | .ok a, .ok b =>
      if h : a = b then isTrue (by rw [h])
      else isFalse (fun he => h (Except.ok.inj he))
  | .error a, .error b =>
      if h : a = b then isTrue (by rw [h])
      else isFalse (fun he => h (Except.error.inj he))
  | .ok _, .error _ => isFalse (fun he => Except.noConfusion he)
  | .error _, .ok _ => isFalse (fun he => Except.noConfusion he)

/-- Per-character model of Python `str.upper` (the source uppercases the
whole message, line 183).  It is exact for ASCII characters; Python's full
Unicode case mapping, which can send one character to several (the sharp s
uppercases to SS, for instance), is not modelled, so theorems whose inputs
range over arbitrary messages restrict themselves to ASCII where that
difference could matter. -/
def pyUpper (c : Char) : Char :=
  if 97 ≤ c.toNat ∧ c.toNat ≤ 122 then Char.ofNat (c.toNat - 32) else c

/-- Python indexing `l[i]` with an `int` index: negative indices count from
the end, out-of-range raises (here: `none`). -/
def pyGet {α : Type} (l : List α) (i : Int) : Option α :=
  if 0 ≤ i then l[i.toNat]?
  else if 0 ≤ (l.length : Int) + i then l[((l.length : Int) + i).toNat]?
  else none

/-- The index Python uses for a slice endpoint `i`: clamped into range,
negative values counting from the end. -/
def pyClampIx (len : Nat) (i : Int) : Nat :=
  if i < 0 then (max 0 ((len : Int) + i)).toNat else min i.toNat len

/-- Python slice `l[i:]`. -/
def pySliceFrom {α : Type} (l : List α) (i : Int) : List α :=
  l.drop (pyClampIx l.length i)

/-- Python slice `l[:i]`. -/
def pySliceTo {α : Type} (l : List α) (i : Int) : List α :=
  l.take (pyClampIx l.length i)

/-- Python `str.index` (line 243): position of the first occurrence,
`ValueError` (here `none`) if absent. -/
def pyIndex (l : List Char) (c : Char) : Option Nat :=
  l.findIdx? (fun x => x == c)

/-- Python `ord` applied to a string: defined only on length-1 strings
(`TypeError` otherwise, e.g. after `replace` deleted or kept several
characters). -/
def pyOrd1 (s : List Char) : Option Int :=
  match s with
  | [c] => some (c.toNat : Int)
  | _ => none

/-- Python list item assignment `l[i] = a`: `IndexError` when out of range. -/
def pySet {α : Type} (l : List α) (i : Nat) (a : α) : Option (List α) :=
  if i < l.length then some (l.set i a) else none

/-- The upper-case Latin alphabet, the source's default `alphabet` argument. -/
def azFull : List Char := "ABCDEFGHIJKLMNOPQRSTUVWXYZ".toList

/-- The length-`n` initial segment of the upper-case Latin alphabet. -/
def azList (n : Nat) : List Char := azFull.take n

/-- The character with code `v + 65`, i.e. `chr(v + 65)` of the source. -/
def azChar (v : Nat) : Char := Char.ofNat (v + 65)

/-- The lexicographic index `ord(c) - 65` the source associates to a character. -/
def posOf (c : Char) : Nat := c.toNat - 65

/-- The configuration fields of the Python object (`self.__num_walzen`,
`self.__base`, `self.__alphabet`, `self.__walzen`, `self.__umkehrwalze`,
`self.__steckerbrett`, `self.__ringkerben`). -/
structure Enigma where
  num_walzen : Nat
  base : List Char
  alphabet : List Char
  walzen : List (List Char)
  umkehrwalze : List Char
  steckerbrett : List (List Char)
  ringkerben : List Int
deriving DecidableEq, Repr

/-- `Enigma.__init__` (lines 10-23), `random=False` branch (the `random=True`
branch draws from the process random source and is not modelled).  Defaults in
the source: `num_walzen=3`, `alphabet="ABCDEFGHIJKLMNOPQRSTUVWXYZ"`.
`alphabet[0]` raises `IndexError` on an empty alphabet, hence the `Option`. -/
def Enigma.init (num_walzen : Nat) (alphabet : List Char) : Option Enigma :=
  match alphabet with
  | [] => none
  | a :: _ => some {
      num_walzen := num_walzen
      base := List.replicate num_walzen a
      alphabet := alphabet
      walzen := List.replicate num_walzen alphabet
      umkehrwalze := alphabet
      steckerbrett := []
      ringkerben := List.replicate num_walzen (alphabet.length : Int) }

/-- `Enigma.set_walze` (lines 25-43), explicit-wiring branch (passing the
sentinel `walze=0` instead triggers random generation, not modelled).  The
source loop raises `InputError` at the first alphabet character missing from
`walze`; observationally that is the `all` test.  The final
`self.__walzen[num] = walze` raises `IndexError` for an out-of-range `num`. -/
def Enigma.set_walze (m : Enigma) (num : Nat) (walze : List Char) :
    Except PyError Enigma :=
  if m.alphabet.length ≠ walze.length then .error .inputError
  else if ¬ (m.alphabet.all (fun ch => decide (ch ∈ walze))) then .error .inputError
  else if num < m.walzen.length then .ok { m with walzen := m.walzen.set num walze }
  else .error .indexError

/-- `Enigma.set_umkehrwalze` (lines 45-76), explicit-wiring branch.  The third
loop (lines 73-75) is translated verbatim: it looks up
`self.__alphabet[self.__alphabet.index(char)]` and compares it with `char`
(`.index` raises `ValueError` when `char` is not in the alphabet). -/
def Enigma.set_umkehrwalze (m : Enigma) (walze : List Char) :
    Except PyError Enigma :=
  if m.alphabet.length ≠ walze.length then .error .inputError
  else if ¬ (m.alphabet.all (fun ch => decide (ch ∈ walze))) then .error .inputError
  else
    match walze.foldlM (fun _ ch =>
        match pyIndex m.alphabet ch with
        | none => Except.error PyError.valueError
        | some i =>
            if m.alphabet.getD i ch ≠ ch then Except.error PyError.inputError
            else Except.ok ()) () with
    | .error e => .error e
    | .ok _ => .ok { m with umkehrwalze := walze }

/-- `Enigma.set_steckerbrett` (lines 78-102), explicit branch: the joined
string must consist of pairwise distinct characters of the alphabet. -/
def Enigma.set_steckerbrett (m : Enigma) (steckerbrett : List (List Char)) :
    Except PyError Enigma :=
  let sb := steckerbrett.flatten
  if sb.enum.all (fun p =>
      decide (p.2 ∈ m.alphabet) && !(sb.drop (p.1 + 1)).contains p.2) then
    .ok { m with steckerbrett := steckerbrett }
  else .error .inputError

/-- `Enigma.set_ringkerben` (lines 104-124), explicit branch (`rk = []`
triggers random generation in the source, not modelled).  The bounds `1`
and `26` are hardcoded in the source, independent of the alphabet size. -/
def Enigma.set_ringkerben (m : Enigma) (rk : List Int) :
    Except PyError Enigma :=
  if rk.length ≠ m.num_walzen then .error .inputError
  else if ¬ (rk.all (fun i => decide (1 ≤ i) && decide (i ≤ 26))) then .error .inputError
  else .ok { m with ringkerben := rk }

/-- `Enigma.set_base` (lines 126-140). -/
def Enigma.set_base (m : Enigma) (base : List Char) :
    Except PyError Enigma :=
  if base.length ≠ m.num_walzen then .error .inputError
  else if ¬ (base.all (fun ch => decide (ch ∈ m.alphabet))) then .error .inputError
  else .ok { m with base := base }

/-- Lines 210-212: the letter form of one relation Walze,
`"".join([chr((num + i) % len(alphabet) + 65) for i, num in enumerate(walze)])`. -/
def mkCurr (alphabet : List Char) (w : List Int) : List Char :=
  w.enum.map (fun p => Char.ofNat (((p.2 + (p.1 : Int)) % (alphabet.length : Int)).toNat + 65))

/-- Lines 192-196: the relation Walze of a rotor wiring,
`[ord(char) - 65 - j for j, char in enumerate(walze)]`. -/
def mkRelation (walze : List Char) : List Int :=
  walze.enum.map (fun jc => ((jc.2.toNat : Int) - 65 - (jc.1 : Int)))

/-- Lines 191-200: one iteration of the setup loop of `encode`: read
`base[i]`, compute `index = ord(base[i]) - 65`, rotate the relation Walze by
the slices `relation[index:] + relation[:index]`, store the index in
`count[i]`, and append the rotated Walze. -/
def setupStep (m : Enigma) (acc : List (List Int) × List Int)
    (iw : Nat × List Char) : Option (List (List Int) × List Int) :=
  (m.base[iw.1]?).bind (fun b =>
    (pySet acc.2 iw.1 ((b.toNat : Int) - 65)).map (fun count =>
      (acc.1 ++ [pySliceFrom (mkRelation iw.2) ((b.toNat : Int) - 65) ++
        pySliceTo (mkRelation iw.2) ((b.toNat : Int) - 65)], count)))

/-- Lines 186-200: build the relation Walzen, rotate each to its base
position, and record the base index in `count` (which the source initializes
to the literal `[0, 0, 0]`; `count[i] = index` raises `IndexError` for a
machine with more than three rotors). -/
def encodeSetup (m : Enigma) : Option (List (List Int) × List Int) :=
  m.walzen.enum.foldlM (setupStep m)
    (([] : List (List Int)), ([0, 0, 0] : List Int))

/-- Lines 217-224: the forward pass through the Steckerbrett.  The first pair
containing the character determines the new lexicographic index via
`ord(stecker.replace(char, "")) - 65`; `ord` raises unless exactly one
character remains. -/
def plugLexFwd (sb : List (List Char)) (c : Char) (lex : Int) : Option Int :=
  match sb.find? (fun stk => decide (c ∈ stk)) with
  | some stk => (pyOrd1 (stk.filter (fun x => decide (x ≠ c)))).map (fun o => o - 65)
  | none => some lex

/-- Lines 226-232: one rotor of the forward pass,
`new_letter = walze[lex_index]; lex_index = ord(new_letter) - 65`. -/
def rotorFwdStep (lex : Int) (w : List Char) : Option Int :=
  (pyGet w lex).map (fun nl => (nl.toNat : Int) - 65)

/-- Lines 241-248: one rotor of the reverse pass, carrying the pair
(`new_letter`, `lex_index`): `index = walze.index(new_letter);
new_letter = alphabet[index]; lex_index = ord(new_letter) - 65`. -/
def rotorRevStep (alphabet : List Char) (p : Char × Int) (w : List Char) :
    Option (Char × Int) :=
  (pyIndex w p.1).bind (fun i =>
    (pyGet alphabet (i : Int)).map (fun nl => (nl, (nl.toNat : Int) - 65)))

/-- Lines 252-258: the reverse pass through the Steckerbrett; the result of
`stecker.replace(char, "")` (a string, not necessarily of length one) is what
gets appended to the output. -/
def plugBack (sb : List (List Char)) (c : Char) : List Char :=
  match sb.find? (fun stk => decide (c ∈ stk)) with
  | some stk => stk.filter (fun x => decide (x ≠ c))
  | none => [c]

/-- Lines 269, 274, 279: `walzen[i] = walzen[i][1:] + [walzen[i][0]]`
(`IndexError` on a missing rotor or an empty rotor list). -/
def rotateW (walzen : List (List Int)) (i : Nat) : Option (List (List Int)) :=
  (walzen[i]?).bind (fun w =>
    (w[0]?).map (fun f => walzen.set i (w.drop 1 ++ [f])))

/-- Lines 268-279: the stepping cascade, hardcoded to three rotors and the
constant modulus 26 (`count[0] = count[0] % 26 + 1`, comparison with
`rk[0]`, then the same one level up; `count[2]` is never touched and `rk[2]`
never read). -/
def stepWalzen (rk : List Int) (walzen : List (List Int)) (count : List Int) :
    Option (List (List Int) × List Int) :=
  (rotateW walzen 0).bind (fun walzen1 =>
    (count[0]?).bind (fun c0 =>
      (rk[0]?).bind (fun r0 =>
        if c0 % 26 + 1 = r0 then
          (rotateW walzen1 1).bind (fun walzen2 =>
            ((count.set 0 (c0 % 26 + 1))[1]?).bind (fun c1 =>
              (rk[1]?).bind (fun r1 =>
                if c1 % 26 + 1 = r1 then
                  (rotateW walzen2 2).map (fun walzen3 =>
                    (walzen3, (count.set 0 (c0 % 26 + 1)).set 1 (c1 % 26 + 1)))
                else some (walzen2,
                  (count.set 0 (c0 % 26 + 1)).set 1 (c1 % 26 + 1)))))
        else some (walzen1, count.set 0 (c0 % 26 + 1)))))

/-- Lines 205-279: processing of one input character.  A character whose
lexicographic index `ord(char) - 65` lies outside `[0, 25]` is skipped
entirely: nothing is appended to the output and the rotors do not move.
`chr(lex_index + 65)` on line 250 cannot fail because `lex_index + 65` is
always the `ord` of some character. -/
def encodeStep (alphabet ukw : List Char) (sb : List (List Char))
    (rk : List Int) (st : List (List Int) × List Int) (c : Char) :
    Option ((List (List Int) × List Int) × List Char) :=
  let lex : Int := (c.toNat : Int) - 65
  if 0 ≤ lex ∧ lex ≤ 25 then
    let currs := st.1.map (mkCurr alphabet)
    (plugLexFwd sb c lex).bind (fun lex =>
      (currs.foldlM rotorFwdStep lex).bind (fun lex =>
        (pyGet ukw lex).bind (fun nl =>
          (currs.reverse.foldlM (rotorRevStep alphabet) (nl, (nl.toNat : Int) - 65)).bind
            (fun p =>
              let ch := Char.ofNat (p.2 + 65).toNat
              let out := plugBack sb ch
              (stepWalzen rk st.1 st.2).map (fun st2 => (st2, out))))))
  else some (st, [])

/-- The message loop of lines 205-279, accumulating `encoded_message`. -/
def encGo (alphabet ukw : List Char) (sb : List (List Char)) (rk : List Int) :
    List (List Int) × List Int → List Char →
    Option ((List (List Int) × List Int) × List Char)
  | st, [] => some (st, [])
  | st, c :: cs =>
    (encodeStep alphabet ukw sb rk st c).bind (fun p =>
      (encGo alphabet ukw sb rk p.1 cs).map (fun q => (q.1, p.2 ++ q.2)))

/-- `Enigma.encode` (lines 142-282), `verbose=False, vverbose=False`: the
printing branches do nothing.  The method only reads the fields of `self`
(lines 168-173 bind them to locals; all mutation targets the local lists
`walzen` and `count`). -/
def Enigma.encode (m : Enigma) (msg : List Char) : Option (List Char) :=
  (encodeSetup m).bind (fun st =>
    (encGo m.alphabet m.umkehrwalze m.steckerbrett m.ringkerben st
        (msg.map pyUpper)).map (fun r => r.2))

/-- State-passing form of the `encode` method call: the body of `encode`
contains no assignment to any `self` field (lines 168-282 bind the fields to
locals and mutate only the local lists `walzen` and `count`), so the
post-state of the receiver is the receiver itself. -/
def Enigma.encodeM (m : Enigma) (msg : List Char) : Option (Enigma × List Char) :=
  (m.encode msg).map (fun out => (m, out))

/-- The 8-letter doctest machine of lines 151-156. -/
def enigma8 : Option Enigma := do
  let m ← Enigma.init 3 "ABCDEFGH".toList
  let m ← (m.set_walze 0 "BDGCAEFH".toList).toOption
  let m ← (m.set_walze 1 "FBEAGCHD".toList).toOption
  let m ← (m.set_walze 2 "FDEABGCH".toList).toOption
  let m ← (m.set_umkehrwalze "HFGEDBCA".toList).toOption
  pure m

/-- The 26-letter doctest machine of lines 158-164. -/
def enigma26 : Option Enigma := do
  let m ← Enigma.init 3 "ABCDEFGHIJKLMNOPQRSTUVWXYZ".toList
  let m ← (m.set_walze 0 "BDFHJLCPRTXVZNYEIWGAKMUSQO".toList).toOption
  let m ← (m.set_walze 1 "AJDKSIRUXBLHWTMCQGZNPYFVOE".toList).toOption
  let m ← (m.set_walze 2 "EKMFLGDQVZNTOWYHXUSPAIBRCJ".toList).toOption
  let m ← (m.set_umkehrwalze "YRUHQSLDPXNGOKMIEBFZCWVJAT".toList).toOption
  let m ← (m.set_base "LCM".toList).toOption
  let m ← (m.set_ringkerben [22, 5, 1]).toOption
  pure m

/-- The value of the 8-letter doctest machine, spelled out. -/
def enigma8val : Enigma :=
  { num_walzen := 3
    base := "AAA".toList
    alphabet := "ABCDEFGH".toList
    walzen := ["BDGCAEFH".toList, "FBEAGCHD".toList, "FDEABGCH".toList]
    umkehrwalze := "HFGEDBCA".toList
    steckerbrett := []
    ringkerben := [8, 8, 8] }

/-- The value of the 26-letter doctest machine, spelled out. -/
def enigma26val : Enigma :=
  { num_walzen := 3
    base := "LCM".toList
    alphabet := azFull
    walzen := ["BDFHJLCPRTXVZNYEIWGAKMUSQO".toList,
               "AJDKSIRUXBLHWTMCQGZNPYFVOE".toList,
               "EKMFLGDQVZNTOWYHXUSPAIBRCJ".toList]
    umkehrwalze := "YRUHQSLDPXNGOKMIEBFZCWVJAT".toList
    steckerbrett := []
    ringkerben := [22, 5, 1] }

/-- The machine the default constructor call `Enigma()` produces. -/
def defaultMachine : Enigma :=
  { num_walzen := 3
    base := "AAA".toList
    alphabet := azFull
    walzen := [azFull, azFull, azFull]
    umkehrwalze := azFull
    steckerbrett := []
    ringkerben := [26, 26, 26] }

/-- Position-level view of the forward lookup through one relation Walze `w`
of a machine over an alphabet of size `n`: the code of `mkCurr`-letter `p`. -/
def fwdP (n : Nat) (w : List Int) (p : Nat) : Nat :=
  ((w.getD p 0 + (p : Int)) % (n : Int)).toNat

/-- Position-level view of the reverse lookup: the index of the letter whose
code is `v` in the letter form of the relation Walze. -/
def invP (n : Nat) (w : List Int) (v : Nat) : Nat :=
  (pyIndex (mkCurr (azList n) w) (azChar v)).getD 0

/-- Position-level view of the reflector lookup `ord(ukw[i]) - 65`. -/
def ukwPos (u : List Char) (i : Nat) : Nat := (u.getD i 'A').toNat - 65

/-- The forward pass, position level, rotors in list order. -/
def fwdPos (n : Nat) (ws : List (List Int)) (v : Nat) : Nat :=
  ws.foldl (fun v w => fwdP n w v) v

/-- The reverse pass, position level, rotors in reversed order. -/
def revPos (n : Nat) (ws : List (List Int)) (v : Nat) : Nat :=
  ws.reverse.foldl (fun v w => invP n w v) v

/-- Position-level signal path between the two Steckerbrett applications:
forward pass, reflector, reverse pass. -/
def posT (n : Nat) (ws : List (List Int)) (u : List Char) (v : Nat) : Nat :=
  revPos n ws (ukwPos u (fwdPos n ws v))

/-- The Steckerbrett as a function: the partner of `c` in the first pair
containing it, `c` itself otherwise. -/
def plugFun (sb : List (List Char)) (c : Char) : Char :=
  match sb.find? (fun stk => decide (c ∈ stk)) with
  | some stk => (stk.filter (fun x => decide (x ≠ c))).headD c
  | none => c

/-- The complete per-character transformation of the signal path. -/
def charT (n : Nat) (ws : List (List Int)) (u : List Char)
    (sb : List (List Char)) (c : Char) : Char :=
  plugFun sb (azChar (posT n ws u (posOf (plugFun sb c))))

/-- Invariant of a relation Walze during encoding over an alphabet of size
`n`: right length, and positionwise sum with the index injective modulo `n`
(equivalently: its letter form `mkCurr` is duplicate-free). -/
def GoodW (n : Nat) (w : List Int) : Prop :=
  w.length = n ∧ ∀ p q : Nat, p < n → q < n →
    (w.getD p 0 + (p : Int)) % (n : Int) = (w.getD q 0 + (q : Int)) % (n : Int) → p = q

/-- Invariant of the working state `(walzen, count)` of `encode`. -/
def StOK (n : Nat) (st : List (List Int) × List Int) : Prop :=
  st.1.length = 3 ∧ (∀ w ∈ st.1, GoodW n w) ∧ st.2.length = 3

/-- A valid configuration in the sense of the spec, for a three-rotor machine
over the length-`n` initial segment of the Latin alphabet: rotor wirings and
reflector wiring are permutations of the alphabet, the reflector is an
involution without fixed points (at position level, positions being
`ord - 65`), the Steckerbrett is a list of disjoint two-letter pairs, and
base and turnover lists have the rotor count as length. -/
structure ValidCfg (m : Enigma) (n : Nat) : Prop where
  hn : 0 < n
  h26 : n ≤ 26
  halpha : m.alphabet = azList n
  hwl : m.walzen.length = 3
  hwperm : ∀ w ∈ m.walzen, w.Perm m.alphabet
  hbase_len : m.base.length = 3
  hbase_mem : ∀ c ∈ m.base, c ∈ m.alphabet
  hukw_perm : m.umkehrwalze.Perm m.alphabet
  hukw_inv : ∀ i, i < n → ukwPos m.umkehrwalze (ukwPos m.umkehrwalze i) = i
  hukw_nofix : ∀ i, i < n → ukwPos m.umkehrwalze i ≠ i
  hsb_len : ∀ stk ∈ m.steckerbrett, stk.length = 2
  hsb_mem : ∀ stk ∈ m.steckerbrett, ∀ c ∈ stk, c ∈ m.alphabet
  hsb_nodup : m.steckerbrett.flatten.Nodup
  hrk : m.ringkerben.length = 3

/-! ## Theorems -/

/-- The setter chain of the first doctest builds `enigma8val`. -/
theorem enigma8_eq_val : enigma8 = some enigma8val := by decide

/-- The setter chain of the second doctest builds `enigma26val`. -/
theorem enigma26_eq_val : enigma26 = some enigma26val := by decide

/-- C2: with alphabet ABCDEFGH, rotors BDGCAEFH/FBEAGCHD/FDEABGCH, reflector
HFGEDBCA, base AAA and no Steckerbrett, `encode "A"` yields `"G"`; with the
default 26-letter alphabet, the stated rotors and reflector, base LCM,
turnovers [22, 5, 1] and no Steckerbrett, `encode "QMJIDO MZWZJFJR"` yields
`"ENIGMAREVEALED"`. -/
theorem C2_concrete_scenarios :
    enigma8.bind (fun m => m.encode "A".toList) = some "G".toList ∧
    enigma26.bind (fun m => m.encode "QMJIDO MZWZJFJR".toList) =
      some "ENIGMAREVEALED".toList := by
  constructor
  · decide
  · decide

/-- C10: `encode` never mutates the machine: the state-passing form of the
method returns the receiver unchanged, so calling it again on the returned
machine gives the same output again. -/
theorem C10_encode_frame (m : Enigma) (msg : List Char) (m2 : Enigma)
    (out : List Char) (h : m.encodeM msg = some (m2, out)) :
    m2 = m ∧ m2.encodeM msg = some (m2, out) := by
  unfold Enigma.encodeM at h ⊢
  cases he : m.encode msg with
  | none => rw [he] at h; exact absurd h (by simp)
  | some o =>
      rw [he] at h
      have hpair : (m, o) = (m2, out) := by simpa using h
      injection hpair with hm ho
      subst hm
      subst ho
      exact ⟨rfl, by rw [he]; rfl⟩

/-- C10, witness: the frame theorem applied to the 8-letter doctest machine. -/
theorem C10_encode_frame_witness :
    enigma8val = enigma8val ∧
      enigma8val.encodeM "A".toList = some (enigma8val, "G".toList) :=
  C10_encode_frame enigma8val "A".toList enigma8val "G".toList (by decide)

/-- C6 is a code bug: the involution check of `set_umkehrwalze`
(lines 73-75) compares `alphabet[alphabet.index(char)]` with `char`, which
is tautologically true, so the identity wiring - a permutation in which
every symbol maps to itself, hence with fixed points and only trivially an
involution - is accepted instead of raising `InputError`. -/
theorem C6_identity_reflector_accepted :
    defaultMachine.set_umkehrwalze azFull = Except.ok defaultMachine ∧
    azFull.getD 0 ' ' = defaultMachine.alphabet.getD 0 ' ' := by
  constructor
  · decide
  · decide

/-- C7 fails: the constructor performs no validation; it succeeds and
installs the identity reflector, whose first symbol maps to itself, i.e. an
inconsistent configuration, without any error. -/
theorem C7_counterexample :
    Enigma.init 3 azFull = some defaultMachine ∧
    defaultMachine.umkehrwalze.getD 0 ' ' =
      defaultMachine.alphabet.getD 0 ' ' := by
  constructor
  · decide
  · decide

/-- C7 (amended): construction never validates and never fails on a nonempty
alphabet: it installs identity rotor and reflector wirings, an empty
Steckerbrett, and turnovers equal to the alphabet size; validation only ever
happens in the individual setters. -/
theorem C7_amended_init_total (n : Nat) (alphabet : List Char)
    (h : alphabet ≠ []) :
    Enigma.init n alphabet = some {
      num_walzen := n
      base := List.replicate n (alphabet.headD ' ')
      alphabet := alphabet
      walzen := List.replicate n alphabet
      umkehrwalze := alphabet
      steckerbrett := []
      ringkerben := List.replicate n (alphabet.length : Int) } := by
  cases alphabet with
  | nil => exact absurd rfl h
  | cons a t => rfl

/-- C7 (amended), witness at the default arguments. -/
theorem C7_amended_init_total_witness :
    azFull ≠ [] ∧
    Enigma.init 3 azFull = some {
      num_walzen := 3
      base := List.replicate 3 (azFull.headD ' ')
      alphabet := azFull
      walzen := List.replicate 3 azFull
      umkehrwalze := azFull
      steckerbrett := []
      ringkerben := List.replicate 3 (azFull.length : Int) } :=
  ⟨by decide, C7_amended_init_total 3 azFull (by decide)⟩

/-- C8 fails as stated: with an 8-letter alphabet the bounds stay the
hardcoded `[1, 26]`, so the turnover list [20, 20, 20] is accepted even
though 20 exceeds the alphabet size 8. -/
theorem C8_counterexample :
    enigma8val.set_ringkerben [20, 20, 20] =
      Except.ok { enigma8val with ringkerben := [20, 20, 20] } ∧
    ¬ ((20 : Int) ≤ (enigma8val.alphabet.length : Int)) := by
  constructor
  · decide
  · decide

/-- C8 (amended): `set_ringkerben` with an explicit nonempty list raises
`InputError` exactly for a length different from the rotor count or a value
outside the hardcoded range [1, 26], independently of the alphabet size. -/
theorem C8_amended_ringkerben (m : Enigma) (rk : List Int) (h : rk ≠ []) :
    m.set_ringkerben rk = Except.error PyError.inputError ↔
      rk.length ≠ m.num_walzen ∨ ∃ i ∈ rk, i < 1 ∨ 26 < i := by
  unfold Enigma.set_ringkerben
  by_cases h1 : rk.length ≠ m.num_walzen
  · rw [if_pos h1]
    exact iff_of_true rfl (Or.inl h1)
  · rw [if_neg h1]
    by_cases h2 : rk.all (fun i => decide (1 ≤ i) && decide (i ≤ 26)) = true
    · rw [if_neg (not_not_intro h2)]
      refine iff_of_false ?_ ?_
      · intro hc
        injection hc
      · simp only [List.all_eq_true, Bool.and_eq_true, decide_eq_true_eq] at h2
        rintro (hc | ⟨i, hi, hbad⟩)
        · exact h1 hc
        · have := h2 i hi
          omega
    · rw [if_pos h2]
      refine iff_of_true rfl (Or.inr ?_)
      simp only [List.all_eq_true, Bool.and_eq_true, decide_eq_true_eq] at h2
      push_neg at h2
      obtain ⟨i, hi, hbad⟩ := h2
      refine ⟨i, hi, ?_⟩
      by_cases h1i : 1 ≤ i
      · exact Or.inr (by have := hbad h1i; omega)
      · exact Or.inl (by omega)

/-- C8 (amended), witness: [0, 0, 0] is rejected on the 8-letter machine. -/
theorem C8_amended_ringkerben_witness :
    ([0, 0, 0] : List Int) ≠ [] ∧
    (enigma8val.set_ringkerben [0, 0, 0] = Except.error PyError.inputError ↔
      ([0, 0, 0] : List Int).length ≠ enigma8val.num_walzen ∨
        ∃ i ∈ ([0, 0, 0] : List Int), i < 1 ∨ 26 < i) :=
  ⟨by decide, C8_amended_ringkerben enigma8val [0, 0, 0] (by decide)⟩

/-- C9: with a duplicate-free alphabet and an in-range rotor index,
`set_walze` with an explicit wiring succeeds (installing the wiring) exactly
when the wiring is a permutation of the alphabet, and otherwise raises
`InputError` - in particular a wiring missing one alphabet symbol is
rejected, and on rejection no rotor is assigned. -/
theorem C9_walze_validation (m : Enigma) (num : Nat) (w : List Char)
    (hnd : m.alphabet.Nodup) (hnum : num < m.walzen.length) :
    (m.set_walze num w = Except.ok { m with walzen := m.walzen.set num w } ↔
      w.Perm m.alphabet) ∧
    (m.set_walze num w = Except.error PyError.inputError ↔
      ¬ w.Perm m.alphabet) := by
  have key : (m.alphabet.length = w.length ∧ ∀ c ∈ m.alphabet, c ∈ w) ↔
      w.Perm m.alphabet := by
    constructor
    · rintro ⟨hlen, hsub⟩
      exact ((List.subperm_of_subset hnd hsub).perm_of_length_le
        (le_of_eq hlen.symm)).symm
    · intro hp
      exact ⟨hp.length_eq.symm, fun c hc => hp.mem_iff.mpr hc⟩
  unfold Enigma.set_walze
  by_cases h1 : m.alphabet.length ≠ w.length
  · rw [if_pos h1]
    have hnp : ¬ w.Perm m.alphabet := fun hp => h1 (key.mpr hp).1
    constructor
    · exact iff_of_false (fun hc => by injection hc) hnp
    · exact iff_of_true rfl hnp
  · rw [if_neg h1]
    rw [not_not] at h1
    by_cases h2 : m.alphabet.all (fun ch => decide (ch ∈ w)) = true
    · rw [if_neg (not_not_intro h2), if_pos hnum]
      simp only [List.all_eq_true, decide_eq_true_eq] at h2
      have hp : w.Perm m.alphabet := key.mp ⟨h1, h2⟩
      constructor
      · exact iff_of_true rfl hp
      · exact iff_of_false (fun hc => by injection hc) (not_not_intro hp)
    · rw [if_pos h2]
      have hnp : ¬ w.Perm m.alphabet := by
        intro hp
        refine h2 ?_
        simp only [List.all_eq_true, decide_eq_true_eq]
        exact (key.mpr hp).2
      constructor
      · exact iff_of_false (fun hc => by injection hc) hnp
      · exact iff_of_true rfl hnp

/-- C9, witness: a 26-letter wiring in which A appears twice and Z is
missing is rejected on the default machine. -/
theorem C9_walze_validation_witness :
    defaultMachine.alphabet.Nodup ∧ 0 < defaultMachine.walzen.length ∧
    (defaultMachine.set_walze 0 "ABCDEFGHIJKLMNOPQRSTUVWXYA".toList =
        Except.error PyError.inputError ↔
      ¬ ("ABCDEFGHIJKLMNOPQRSTUVWXYA".toList).Perm defaultMachine.alphabet) :=
  ⟨by decide, by decide,
    (C9_walze_validation defaultMachine 0 "ABCDEFGHIJKLMNOPQRSTUVWXYA".toList
      (by decide) (by decide)).2⟩

/-- Splitting the encoding loop over a concatenation: the second part
continues from the rotor state the first part reached. -/
theorem encGo_append (alphabet ukw : List Char) (sb : List (List Char))
    (rk : List Int) (st : List (List Int) × List Int) (l1 l2 : List Char) :
    encGo alphabet ukw sb rk st (l1 ++ l2) =
      (encGo alphabet ukw sb rk st l1).bind (fun p =>
        (encGo alphabet ukw sb rk p.1 l2).map (fun q => (q.1, p.2 ++ q.2))) := by
  induction l1 generalizing st with
  | nil =>
      cases hg : encGo alphabet ukw sb rk st l2 with
      | none => simp [encGo, hg]
      | some q => obtain ⟨q1, q2⟩ := q; simp [encGo, hg]
  | cons c cs ih =>
      cases hs : encodeStep alphabet ukw sb rk st c with
      | none => simp [encGo, hs]
      | some p =>
          cases hg : encGo alphabet ukw sb rk p.1 cs with
          | none => simp [encGo, hs, ih, hg]
          | some r =>
              cases hg2 : encGo alphabet ukw sb rk r.1 l2 with
              | none => simp [encGo, hs, ih, hg, hg2]
              | some q => simp [encGo, hs, ih, hg, hg2]

/-- C5 fails as stated: each call restarts from the base positions, so on
the 8-letter machine two successive calls on "A" both give "G", while a
single call on "AA" gives "GE". -/
theorem C5_counterexample :
    (enigma8val.encode "A".toList).bind (fun o1 =>
      (enigma8val.encode "A".toList).map (fun o2 => o1 ++ o2)) ≠
      enigma8val.encode "AA".toList := by decide

/-- C5 (amended): rotor positions are local to a call, not persisted on the
object; within a single call the state does advance: encoding a
concatenation equals encoding the first part and then continuing the second
part from the rotor state the first part reached. -/
theorem C5_amended_concat (m : Enigma) (msg1 msg2 : List Char) :
    m.encode (msg1 ++ msg2) =
      (encodeSetup m).bind (fun st =>
        (encGo m.alphabet m.umkehrwalze m.steckerbrett m.ringkerben st
            (msg1.map pyUpper)).bind (fun p =>
          (encGo m.alphabet m.umkehrwalze m.steckerbrett m.ringkerben p.1
              (msg2.map pyUpper)).map (fun q => p.2 ++ q.2))) := by
  unfold Enigma.encode
  rw [List.map_append]
  cases hs : encodeSetup m with
  | none => rfl
  | some st =>
      rw [Option.some_bind, Option.some_bind, encGo_append]
      cases hg : encGo m.alphabet m.umkehrwalze m.steckerbrett m.ringkerben st
          (msg1.map pyUpper) with
      | none => rfl
      | some p =>
          simp only [Option.some_bind]
          cases hg2 : encGo m.alphabet m.umkehrwalze m.steckerbrett
              m.ringkerben p.1 (msg2.map pyUpper) with
          | none => rfl
          | some q => rfl

/-- C3 fails as stated: the space of a one-character message is dropped, so
the output is shorter than the input. -/
theorem C3_counterexample :
    (enigma8val.encode [' ']).map List.length ≠ some ([' '].length) := by
  decide

/-- C4 fails as stated: on the 8-letter machine, I is outside the alphabet,
yet encoding it raises an IndexError (its code lies within A-Z, so it is
processed); the space, also outside the alphabet, is dropped from the output
rather than appearing unchanged at its position. -/
theorem C4_counterexample :
    ('I' ∉ enigma8val.alphabet) ∧ enigma8val.encode ['I'] = none ∧
    (' ' ∉ enigma8val.alphabet) ∧ enigma8val.encode [' '] = some [] := by
  decide

/-- C4 (amended): a character whose code lies outside the range of the
upper-case Latin letters is skipped entirely by the per-character loop: it
produces no output, moves no rotor, and raises no error.  (Characters inside
A-Z but beyond a shorter alphabet are processed instead and can raise an
index error, see the counterexample.) -/
theorem C4_amended_skip (alphabet ukw : List Char) (sb : List (List Char))
    (rk : List Int) (st : List (List Int) × List Int) (c : Char)
    (h : c.toNat < 65 ∨ 90 < c.toNat) :
    encodeStep alphabet ukw sb rk st c = some (st, []) := by
  unfold encodeStep
  rw [if_neg]
  rintro ⟨h0, h25⟩
  omega

/-- C4 (amended), witness: the space character is skipped without error. -/
theorem C4_amended_skip_witness :
    (' '.toNat < 65 ∨ 90 < ' '.toNat) ∧
    encodeStep azFull azFull [] [26, 26, 26] ([[0]], [0, 0, 0]) ' ' =
      some (([[0]], [0, 0, 0]), []) :=
  ⟨by decide, C4_amended_skip azFull azFull [] [26, 26, 26]
    ([[0]], [0, 0, 0]) ' ' (by decide)⟩

/-- C1 fails as stated for arbitrary plaintexts: a space is dropped by both
passes, so encoding the encoding of " " returns "" rather than " ". -/
theorem C1_counterexample :
    (enigma8val.encode [' ']).bind enigma8val.encode ≠ some [' '] := by
  decide

/-- Characters built by `chr(v + 65)` have code `v + 65`. -/
theorem azChar_toNat (v : Nat) (hv : v < 1000) : (azChar v).toNat = v + 65 := by
  have h : (v + 65).isValidChar := Or.inl (by omega)
  simp [azChar, Char.ofNat, h, Char.ofNatAux, Char.toNat, UInt32.toNat,
    BitVec.toNat_ofNatLt]

/-- `ord` and `chr` cancel on small codes. -/
theorem posOf_azChar (v : Nat) (hv : v < 1000) : posOf (azChar v) = v := by
  simp [posOf, azChar_toNat v hv]

/-- `chr` is injective on small codes. -/
theorem azChar_inj (v w : Nat) (hv : v < 1000) (hw : w < 1000)
    (h : azChar v = azChar w) : v = w := by
  have h2 := congrArg Char.toNat h
  rw [azChar_toNat v hv, azChar_toNat w hw] at h2
  omega

/-- The default alphabet has 26 characters. -/
theorem azFull_length : azFull.length = 26 := by decide

/-- Length of the truncated alphabet. -/
theorem azList_length (n : Nat) (h26 : n ≤ 26) : (azList n).length = n := by
  rw [azList, List.length_take, azFull_length]
  omega

/-- The characters of the truncated alphabet. -/
theorem azList_getElem? (n i : Nat) (h26 : n ≤ 26) (hi : i < n) :
    (azList n)[i]? = some (azChar i) := by
  have hfull : ∀ j, j < 26 → azFull[j]? = some (azChar j) := by decide
  rw [azList, List.getElem?_take_of_lt hi]
  exact hfull i (by omega)

/-- Membership in the truncated alphabet is having a small code. -/
theorem mem_azList (n : Nat) (h26 : n ≤ 26) (c : Char) :
    c ∈ azList n ↔ ∃ v, v < n ∧ c = azChar v := by
  constructor
  · intro hc
    obtain ⟨i, hg⟩ := List.mem_iff_getElem?.mp hc
    by_cases hi : i < n
    · exact ⟨i, hi, by rw [azList_getElem? n i h26 hi] at hg; exact
        (Option.some.inj hg).symm⟩
    · exfalso
      rw [List.getElem?_eq_none (by rw [azList_length n h26]; omega)] at hg
      exact Option.noConfusion hg
  · rintro ⟨v, hv, rfl⟩
    exact List.getElem?_mem (azList_getElem? n v h26 hv)

/-- Indexing through `enumerate`-and-map, the comprehension pattern of the
source. -/
theorem enumMap_getElem? {α β : Type} (f : Nat × α → β) (l : List α)
    (i : Nat) :
    (l.enum.map f)[i]? = (l[i]?).map (fun a => f (i, a)) := by
  rw [List.getElem?_map, List.enum_eq_enumFrom, List.getElem?_enumFrom]
  cases l[i]? with
  | none => rfl
  | some a => simp

/-- `mkCurr` preserves length. -/
theorem mkCurr_length (A : List Char) (w : List Int) :
    (mkCurr A w).length = w.length := by
  simp [mkCurr]

/-- The letters of `mkCurr` are the `fwdP` images. -/
theorem mkCurr_getElem? (n : Nat) (h26 : n ≤ 26) (w : List Int) (i : Nat)
    (hi : i < w.length) :
    (mkCurr (azList n) w)[i]? = some (azChar (fwdP n w i)) := by
  rw [mkCurr, enumMap_getElem?, List.getElem?_eq_getElem hi]
  simp only [Option.map_some']
  congr 2
  rw [azList_length n h26, fwdP, List.getD_eq_getElem _ _ hi]

/-- `fwdP` lands below `n`. -/
theorem fwdP_lt (n : Nat) (hn : 0 < n) (w : List Int) (p : Nat) :
    fwdP n w p < n := by
  have h0 : (0 : Int) < (n : Int) := by exact_mod_cast hn
  have h1 : 0 ≤ (w.getD p 0 + (p : Int)) % (n : Int) :=
    Int.emod_nonneg _ (by omega)
  have h2 : (w.getD p 0 + (p : Int)) % (n : Int) < (n : Int) :=
    Int.emod_lt_of_pos _ h0
  rw [fwdP]
  omega

/-- On a good Walze, `fwdP` is injective below `n`. -/
theorem fwdP_inj (n : Nat) (w : List Int) (hw : GoodW n w) (p q : Nat)
    (hp : p < n) (hq : q < n) (h : fwdP n w p = fwdP n w q) : p = q := by
  apply hw.2 p q hp hq
  have h1 : 0 ≤ (w.getD p 0 + (p : Int)) % (n : Int) :=
    Int.emod_nonneg _ (by omega)
  have h2 : 0 ≤ (w.getD q 0 + (q : Int)) % (n : Int) :=
    Int.emod_nonneg _ (by omega)
  unfold fwdP at h
  omega

/-- On a good Walze, `fwdP` is surjective below `n`. -/
theorem fwdP_surj (n : Nat) (w : List Int) (hw : GoodW n w) (v : Nat)
    (hv : v < n) : ∃ p, p < n ∧ fwdP n w p = v := by
  classical
  have hn : 0 < n := by omega
  have hinj : Set.InjOn (fwdP n w) (Finset.range n) := by
    intro p hp q hq h
    simp only [Finset.coe_range, Set.mem_Iio] at hp hq
    exact fwdP_inj n w hw p q hp hq h
  have hsub : (Finset.range n).image (fwdP n w) ⊆ Finset.range n := by
    intro x hx
    simp only [Finset.mem_image, Finset.mem_range] at hx ⊢
    obtain ⟨p, hp, rfl⟩ := hx
    exact fwdP_lt n hn w p
  have hcard : (Finset.range n).card ≤
      ((Finset.range n).image (fwdP n w)).card := by
    rw [Finset.card_image_of_injOn hinj]
  have heq := Finset.eq_of_subset_of_card_le hsub hcard
  have hmem : v ∈ (Finset.range n).image (fwdP n w) := by
    rw [heq]
    simp [hv]
  simp only [Finset.mem_image, Finset.mem_range] at hmem
  exact hmem

/-- `findIdx?` returns the unique index satisfying the predicate. -/
theorem findIdx?_eq_some_of_unique {α : Type} (pred : α → Bool) (l : List α)
    (i : Nat) (hi : i < l.length) (hp : pred (l.get ⟨i, hi⟩) = true)
    (huniq : ∀ j, (hj : j < l.length) → pred (l.get ⟨j, hj⟩) = true → j = i) :
    l.findIdx? pred = some i := by
  induction l generalizing i with
  | nil => simp at hi
  | cons a t ih =>
      rw [List.findIdx?_cons]
      by_cases ha : pred a = true
      · rw [if_pos ha]
        have h0 : 0 = i := huniq 0 (by simp) (by simpa using ha)
        rw [← h0]
      · rw [if_neg ha, List.findIdx?_succ]
        cases i with
        | zero => exact absurd (by simpa using hp) ha
        | succ k =>
            have hk : k < t.length := by simpa using hi
            have hpk : pred (t.get ⟨k, hk⟩) = true := by simpa using hp
            rw [ih k hk hpk ?_]
            · rfl
            · intro j hj hpj
              have := huniq (j + 1) (by simpa using hj) (by simpa using hpj)
              omega

/-- The source's reverse lookup `walze.index(new_letter)` inverts the
forward lookup on a good Walze. -/
theorem pyIndex_mkCurr_eq (n : Nat) (hn : 0 < n) (h26 : n ≤ 26)
    (w : List Int) (hw : GoodW n w) (p : Nat) (hp : p < n) :
    pyIndex (mkCurr (azList n) w) (azChar (fwdP n w p)) = some p := by
  unfold pyIndex
  have hlen : (mkCurr (azList n) w).length = n := by
    rw [mkCurr_length, hw.1]
  have hget : ∀ j, (hj : j < n) →
      (mkCurr (azList n) w).get ⟨j, by omega⟩ = azChar (fwdP n w j) := by
    intro j hj
    have h1 := mkCurr_getElem? n h26 w j (by rw [hw.1]; omega)
    rw [List.getElem?_eq_getElem (by omega)] at h1
    have h2 := Option.some.inj h1
    rw [List.get_eq_getElem]
    exact h2
  apply findIdx?_eq_some_of_unique _ _ p (by omega)
  · rw [hget p hp]
    simp
  · intro j hj hpj
    have hjn : j < n := by omega
    rw [hget j hjn] at hpj
    have heq : azChar (fwdP n w j) = azChar (fwdP n w p) := by
      simpa using hpj
    have hfj : fwdP n w j = fwdP n w p :=
      azChar_inj _ _ (by have := fwdP_lt n hn w j; omega)
        (by have := fwdP_lt n hn w p; omega) heq
    exact fwdP_inj n w hw j p hjn hp hfj

/-- `invP` is the left inverse of `fwdP`. -/
theorem invP_fwdP (n : Nat) (hn : 0 < n) (h26 : n ≤ 26) (w : List Int)
    (hw : GoodW n w) (p : Nat) (hp : p < n) : invP n w (fwdP n w p) = p := by
  rw [invP, pyIndex_mkCurr_eq n hn h26 w hw p hp]
  rfl

/-- `invP` lands below `n` and is the right inverse of `fwdP`. -/
theorem invP_spec (n : Nat) (hn : 0 < n) (h26 : n ≤ 26) (w : List Int)
    (hw : GoodW n w) (v : Nat) (hv : v < n) :
    invP n w v < n ∧ fwdP n w (invP n w v) = v := by
  obtain ⟨p, hp, hfp⟩ := fwdP_surj n w hw v hv
  rw [← hfp, invP_fwdP n hn h26 w hw p hp]
  exact ⟨hp, rfl⟩

/-- Index arithmetic of the slice rotation `w[b:] + w[:b]`. -/
theorem rotGetD (n : Nat) (w : List Int) (hlen : w.length = n) (b : Nat)
    (hb : b ≤ n) (p : Nat) (hp : p < n) :
    (w.drop b ++ w.take b).getD p 0 = w.getD ((p + b) % n) 0 := by
  have hdl : (w.drop b).length = n - b := by rw [List.length_drop, hlen]
  by_cases hcase : p < n - b
  · have hmod : (p + b) % n = p + b := Nat.mod_eq_of_lt (by omega)
    rw [hmod, List.getD_eq_getElem?_getD,
        List.getElem?_append_left (by rw [hdl]; omega),
        List.getElem?_drop, List.getD_eq_getElem?_getD]
    congr 2
    omega
  · have hbp : n ≤ p + b := by omega
    have hmod : (p + b) % n = p + b - n := by
      rw [Nat.mod_eq_sub_mod hbp]
      exact Nat.mod_eq_of_lt (by omega)
    rw [hmod, List.getD_eq_getElem?_getD,
        List.getElem?_append_right (by rw [hdl]; omega), hdl,
        List.getElem?_take_of_lt (by omega), List.getD_eq_getElem?_getD]
    congr 2
    omega

/-- Rotating a good Walze by any amount keeps it good. -/
theorem GoodW_rotate (n : Nat) (w : List Int) (hw : GoodW n w) (b : Nat)
    (hb : b ≤ n) : GoodW n (w.drop b ++ w.take b) := by
  have hlen : (w.drop b ++ w.take b).length = n := by
    rw [List.length_append, List.length_drop, List.length_take, hw.1]
    omega
  refine ⟨hlen, ?_⟩
  intro p q hp hq heq
  have hn0 : 0 < n := by omega
  rw [rotGetD n w hw.1 b hb p hp, rotGetD n w hw.1 b hb q hq] at heq
  set p2 := (p + b) % n with hp2
  set q2 := (q + b) % n with hq2
  have hp2n : p2 < n := Nat.mod_lt _ hn0
  have hq2n : q2 < n := Nat.mod_lt _ hn0
  have hmod : ∀ r : Nat,
      ((((r + b) % n : Nat)) : Int) ≡ (r : Int) + (b : Int) [ZMOD (n : Int)] := by
    intro r
    have hc : (((r + b) % n : Nat) : Int) = ((r : Int) + b) % (n : Int) := by
      push_cast
      rfl
    rw [Int.ModEq, hc]
    exact Int.emod_emod_of_dvd _ dvd_rfl
  have h1 : (w.getD p2 0 + (p2 : Int)) ≡
      (w.getD p2 0 + ((p : Int) + b)) [ZMOD (n : Int)] :=
    Int.ModEq.add_left _ (hmod p)
  have h2 : (w.getD q2 0 + (q2 : Int)) ≡
      (w.getD q2 0 + ((q : Int) + b)) [ZMOD (n : Int)] :=
    Int.ModEq.add_left _ (hmod q)
  have hE : (w.getD p2 0 + (p : Int)) ≡
      (w.getD q2 0 + (q : Int)) [ZMOD (n : Int)] := heq
  have hE2 : (w.getD p2 0 + ((p : Int) + b)) ≡
      (w.getD q2 0 + ((q : Int) + b)) [ZMOD (n : Int)] := by
    calc w.getD p2 0 + ((p : Int) + b)
        = (w.getD p2 0 + p) + b := by ring
      _ ≡ (w.getD q2 0 + q) + b [ZMOD (n : Int)] := hE.add_right (b : Int)
      _ = w.getD q2 0 + ((q : Int) + b) := by ring
  have hfinal : (w.getD p2 0 + (p2 : Int)) % (n : Int) =
      (w.getD q2 0 + (q2 : Int)) % (n : Int) := h1.trans (hE2.trans h2.symm)
  have hp2q2 : p2 = q2 := hw.2 p2 q2 hp2n hq2n hfinal
  have hnm : (p + b) % n = (q + b) % n := by rw [← hp2, ← hq2, hp2q2]
  have hmq : p % n = q % n := Nat.ModEq.add_right_cancel' b hnm
  rw [Nat.mod_eq_of_lt hp, Nat.mod_eq_of_lt hq] at hmq
  exact hmq

/-- `mkRelation` preserves length. -/
theorem mkRelation_length (W : List Char) :
    (mkRelation W).length = W.length := by
  simp [mkRelation]

/-- The relation Walze of a permutation of the alphabet is good. -/
theorem GoodW_mkRelation (n : Nat) (h26 : n ≤ 26) (W : List Char)
    (hperm : W.Perm (azList n)) : GoodW n (mkRelation W) := by
  have haznd : (azList n).Nodup := by
    have h1 : azFull.Nodup := by decide
    exact (List.take_sublist n azFull).nodup h1
  have hnd : W.Nodup := (hperm.nodup_iff).mpr haznd
  have hlen : W.length = n := by rw [hperm.length_eq, azList_length n h26]
  have hrel : (mkRelation W).length = n := by rw [mkRelation_length, hlen]
  have hval : ∀ r, (hr : r < n) →
      ((mkRelation W).getD r 0 + (r : Int)) =
        ((posOf (W.get ⟨r, by omega⟩)) : Int) ∧
      posOf (W.get ⟨r, by omega⟩) < n := by
    intro r hr
    have hmem : W.get ⟨r, by omega⟩ ∈ azList n :=
      hperm.subset (W.get_mem _ _)
    obtain ⟨v, hv, hvc⟩ := (mem_azList n h26 _).mp hmem
    have htn : (W.get ⟨r, by omega⟩).toNat = v + 65 := by
      rw [hvc, azChar_toNat v (by omega)]
    have hget : (mkRelation W).getD r 0 =
        ((W.get ⟨r, by omega⟩).toNat : Int) - 65 - r := by
      rw [List.getD_eq_getElem?_getD]
      unfold mkRelation
      rw [enumMap_getElem?, List.getElem?_eq_getElem (by omega)]
      simp only [Option.map_some', Option.getD_some]
      rw [List.get_eq_getElem]
    constructor
    · rw [hget, htn, hvc, posOf_azChar v (by omega)]
      push_cast
      ring
    · rw [hvc, posOf_azChar v (by omega)]
      exact hv
  refine ⟨hrel, ?_⟩
  intro p q hp hq heq
  obtain ⟨hvp, hbp⟩ := hval p hp
  obtain ⟨hvq, hbq⟩ := hval q hq
  rw [hvp, hvq] at heq
  rw [Int.emod_eq_of_lt (by omega) (by exact_mod_cast hbp),
      Int.emod_eq_of_lt (by omega) (by exact_mod_cast hbq)] at heq
  have hposeq : posOf (W.get ⟨p, by omega⟩) = posOf (W.get ⟨q, by omega⟩) := by
    exact_mod_cast heq
  have hmemp : W.get ⟨p, by omega⟩ ∈ azList n := hperm.subset (W.get_mem _ _)
  have hmemq : W.get ⟨q, by omega⟩ ∈ azList n := hperm.subset (W.get_mem _ _)
  obtain ⟨vp, hvpn, hvpc⟩ := (mem_azList n h26 _).mp hmemp
  obtain ⟨vq, hvqn, hvqc⟩ := (mem_azList n h26 _).mp hmemq
  rw [hvpc, hvqc, posOf_azChar vp (by omega), posOf_azChar vq (by omega)]
    at hposeq
  have hchar : W.get ⟨p, by omega⟩ = W.get ⟨q, by omega⟩ := by
    rw [hvpc, hvqc, hposeq]
  have hinj := List.nodup_iff_injective_get.mp hnd hchar
  exact Fin.mk.inj_iff.mp hinj

/-- The single-step rotation `w[1:] + [w[0]]` of a good Walze is good. -/
theorem GoodW_rot1 (n : Nat) (hn : 0 < n) (w : List Int) (hw : GoodW n w)
    (f : Int) (hf : w[0]? = some f) : GoodW n (w.drop 1 ++ [f]) := by
  obtain ⟨x, t, rfl⟩ : ∃ x t, w = x :: t := by
    cases w with
    | nil => simp at hf
    | cons x t => exact ⟨x, t, rfl⟩
  have hx : f = x := by simpa using hf.symm
  subst hx
  have h := GoodW_rotate n (f :: t) hw 1 (by omega)
  simpa using h

/-- `rotateW` succeeds on an in-range index and preserves the invariant. -/
theorem rotateW_ok (n : Nat) (hn : 0 < n) (ws : List (List Int)) (i : Nat)
    (hi : i < ws.length) (hws : ∀ w ∈ ws, GoodW n w) :
    ∃ ws2, rotateW ws i = some ws2 ∧ ws2.length = ws.length ∧
      ∀ w ∈ ws2, GoodW n w := by
  obtain ⟨w, hw, hwmem⟩ : ∃ w, ws[i]? = some w ∧ w ∈ ws := by
    rw [List.getElem?_eq_getElem hi]
    exact ⟨_, rfl, List.getElem_mem _⟩
  have hwg : GoodW n w := hws _ hwmem
  have hlen : w.length = n := hwg.1
  obtain ⟨f, hf⟩ : ∃ f, w[0]? = some f := by
    rw [List.getElem?_eq_getElem (by omega)]
    exact ⟨_, rfl⟩
  refine ⟨ws.set i (w.drop 1 ++ [f]), ?_, ?_, ?_⟩
  · unfold rotateW
    rw [hw, Option.some_bind, hf, Option.map_some']
  · rw [List.length_set]
  · intro w2 hw2
    rcases List.mem_or_eq_of_mem_set hw2 with h | h
    · exact hws w2 h
    · rw [h]
      exact GoodW_rot1 n hn _ hwg _ hf

/-- The stepping cascade succeeds on a three-rotor state with three
turnovers and preserves the invariant (the turnover values themselves are
irrelevant). -/
theorem stepWalzen_ok (n : Nat) (hn : 0 < n) (rk : List Int)
    (hrk : rk.length = 3) (ws : List (List Int)) (cnt : List Int)
    (hws3 : ws.length = 3) (hws : ∀ w ∈ ws, GoodW n w)
    (hcnt : cnt.length = 3) :
    ∃ st2, stepWalzen rk ws cnt = some st2 ∧ StOK n st2 := by
  obtain ⟨ws1, hw1, hl1, hg1⟩ := rotateW_ok n hn ws 0 (by omega) hws
  obtain ⟨c0, hc0⟩ : ∃ c0, cnt[0]? = some c0 := by
    rw [List.getElem?_eq_getElem (by omega)]
    exact ⟨_, rfl⟩
  obtain ⟨r0, hr0⟩ : ∃ r0, rk[0]? = some r0 := by
    rw [List.getElem?_eq_getElem (by omega)]
    exact ⟨_, rfl⟩
  unfold stepWalzen
  rw [hw1, Option.some_bind, hc0, Option.some_bind, hr0, Option.some_bind]
  have hsl : (cnt.set 0 (c0 % 26 + 1)).length = 3 := by
    rw [List.length_set, hcnt]
  by_cases h1 : c0 % 26 + 1 = r0
  · rw [if_pos h1]
    obtain ⟨ws2, hw2, hl2, hg2⟩ := rotateW_ok n hn ws1 1 (by omega) hg1
    obtain ⟨c1, hc1⟩ : ∃ c1, (cnt.set 0 (c0 % 26 + 1))[1]? = some c1 := by
      rw [List.getElem?_eq_getElem (by omega)]
      exact ⟨_, rfl⟩
    obtain ⟨r1, hr1⟩ : ∃ r1, rk[1]? = some r1 := by
      rw [List.getElem?_eq_getElem (by omega)]
      exact ⟨_, rfl⟩
    rw [hw2, Option.some_bind, hc1, Option.some_bind, hr1, Option.some_bind]
    by_cases h2 : c1 % 26 + 1 = r1
    · rw [if_pos h2]
      obtain ⟨ws3, hw3, hl3, hg3⟩ := rotateW_ok n hn ws2 2 (by omega) hg2
      rw [hw3, Option.map_some']
      refine ⟨_, rfl, ?_, hg3, ?_⟩
      · rw [hl3, hl2, hl1, hws3]
      · rw [List.length_set, hsl]
    · rw [if_neg h2]
      refine ⟨_, rfl, ?_, hg2, ?_⟩
      · rw [hl2, hl1, hws3]
      · rw [List.length_set, hsl]
  · rw [if_neg h1]
    refine ⟨_, rfl, ?_, hg1, ?_⟩
    · rw [hl1, hws3]
    · exact hsl

/-- One setup iteration: on a valid rotor and base letter it produces the
good rotated relation Walze and records the base index. -/
theorem setupStep_ok (n : Nat) (hn : 0 < n) (h26 : n ≤ 26) (m : Enigma)
    (i : Nat) (W : List Char) (hperm : W.Perm (azList n))
    (b : Char) (hbase : m.base[i]? = some b) (v : Nat) (hv : v < n)
    (hbc : b = azChar v) (acc : List (List Int) × List Int)
    (hacc : acc.2.length = 3) (hi : i < 3) :
    ∃ r, setupStep m acc (i, W) = some (acc.1 ++ [r], acc.2.set i (v : Int)) ∧
      GoodW n r ∧ (acc.2.set i (v : Int)).length = 3 := by
  have hidx : ((b.toNat : Int) - 65) = (v : Int) := by
    rw [hbc, azChar_toNat v (by omega)]
    push_cast
    ring
  unfold setupStep
  rw [hbase, Option.some_bind, hidx]
  have hset : pySet acc.2 i (v : Int) = some (acc.2.set i (v : Int)) := by
    unfold pySet
    rw [if_pos (by omega)]
  rw [hset, Option.map_some']
  refine ⟨_, rfl, ?_, by rw [List.length_set, hacc]⟩
  have hrel : GoodW n (mkRelation W) := GoodW_mkRelation n h26 W hperm
  have hlenr : (mkRelation W).length = n := hrel.1
  have hclamp : pyClampIx (mkRelation W).length ((v : Nat) : Int) = v := by
    unfold pyClampIx
    rw [if_neg (by omega), hlenr]
    omega
  unfold pySliceFrom pySliceTo
  rw [hclamp]
  exact GoodW_rotate n (mkRelation W) hrel v (by omega)

/-- The setup phase of `encode` succeeds on a valid configuration and
establishes the loop invariant. -/
theorem encodeSetup_ok (m : Enigma) (n : Nat) (hv : ValidCfg m n) :
    ∃ st, encodeSetup m = some st ∧ StOK n st := by
  obtain ⟨W0, W1, W2, hW⟩ := List.length_eq_three.mp hv.hwl
  obtain ⟨b0, b1, b2, hB⟩ := List.length_eq_three.mp hv.hbase_len
  have hmem : ∀ b ∈ m.base, ∃ v, v < n ∧ b = azChar v := by
    intro b hb
    have h2 := hv.hbase_mem b hb
    rw [hv.halpha] at h2
    exact (mem_azList n hv.h26 b).mp h2
  obtain ⟨v0, hv0, hb0⟩ := hmem b0 (by rw [hB]; simp)
  obtain ⟨v1, hv1, hb1⟩ := hmem b1 (by rw [hB]; simp)
  obtain ⟨v2, hv2, hb2⟩ := hmem b2 (by rw [hB]; simp)
  have hperm : ∀ W ∈ m.walzen, W.Perm (azList n) := by
    intro W hWm
    have h2 := hv.hwperm W hWm
    rwa [hv.halpha] at h2
  have hp0 := hperm W0 (by rw [hW]; simp)
  have hp1 := hperm W1 (by rw [hW]; simp)
  have hp2 := hperm W2 (by rw [hW]; simp)
  have hbase0 : m.base[0]? = some b0 := by rw [hB]; rfl
  have hbase1 : m.base[1]? = some b1 := by rw [hB]; rfl
  have hbase2 : m.base[2]? = some b2 := by rw [hB]; rfl
  obtain ⟨r0, hs0, hg0, hc0⟩ := setupStep_ok n hv.hn hv.h26 m 0 W0 hp0 b0
    hbase0 v0 hv0 hb0 ([], [0, 0, 0]) (by simp) (by omega)
  obtain ⟨r1, hs1, hg1, hc1⟩ := setupStep_ok n hv.hn hv.h26 m 1 W1 hp1 b1
    hbase1 v1 hv1 hb1 ([] ++ [r0], ([0, 0, 0] : List Int).set 0 (v0 : Int))
    hc0 (by omega)
  obtain ⟨r2, hs2, hg2, hc2⟩ := setupStep_ok n hv.hn hv.h26 m 2 W2 hp2 b2
    hbase2 v2 hv2 hb2 (([] ++ [r0]) ++ [r1],
      (([0, 0, 0] : List Int).set 0 (v0 : Int)).set 1 (v1 : Int))
    hc1 (by omega)
  unfold encodeSetup
  rw [hW]
  have henum : ([W0, W1, W2] : List (List Char)).enum =
      [(0, W0), (1, W1), (2, W2)] := rfl
  rw [henum]
  simp only [List.foldlM_cons, List.foldlM_nil, Option.bind_eq_bind,
    Option.pure_def, hs0, Option.some_bind, hs1, hs2]
  refine ⟨_, rfl, ?_, ?_, hc2⟩
  · simp
  · intro w hw2
    simp only [List.nil_append, List.mem_append, List.mem_singleton] at hw2
    rcases hw2 with (h | h) | h
    · rw [h]; exact hg0
    · rw [h]; exact hg1
    · rw [h]; exact hg2

/-- Parts of a duplicate-free joined Steckerbrett are duplicate-free. -/
theorem nodup_of_mem_flatten_nodup (L : List (List Char))
    (hnd : L.flatten.Nodup) (l : List Char) (hl : l ∈ L) : l.Nodup := by
  induction L with
  | nil => simp at hl
  | cons s rest ih =>
      rw [List.flatten_cons, List.nodup_append] at hnd
      rcases List.mem_cons.mp hl with rfl | h
      · exact hnd.1
      · exact ih hnd.2.1 h

/-- A two-letter duplicate-free pair: filtering away one member leaves
exactly the partner, and vice versa. -/
theorem pair_filter_partner (stk : List Char) (hlen : stk.length = 2)
    (hnd : stk.Nodup) (c : Char) (hc : c ∈ stk) :
    ∃ d, stk.filter (fun x => decide (x ≠ c)) = [d] ∧ d ∈ stk ∧ d ≠ c ∧
      stk.filter (fun x => decide (x ≠ d)) = [c] := by
  obtain ⟨a, b, rfl⟩ := List.length_eq_two.mp hlen
  have hab : a ≠ b := by
    simp only [List.nodup_cons, List.mem_singleton, List.nodup_nil,
      and_true] at hnd
    exact hnd.1
  rcases (by simpa using hc : c = a ∨ c = b) with rfl | rfl
  · refine ⟨b, ?_, by simp, fun h => hab h.symm, ?_⟩
    · simp [List.filter_cons, Ne.symm hab]
    · simp [List.filter_cons, hab]
  · refine ⟨a, ?_, by simp, hab, ?_⟩
    · simp [List.filter_cons, hab]
    · simp [List.filter_cons, Ne.symm hab]

/-- With globally distinct Steckerbrett letters, the first pair containing a
letter also is the first pair containing its partner. -/
theorem find?_pair_partner (sb : List (List Char)) (hnd : sb.flatten.Nodup)
    (c d : Char) (stk : List Char)
    (h : sb.find? (fun s => decide (c ∈ s)) = some stk) (hd : d ∈ stk) :
    sb.find? (fun s => decide (d ∈ s)) = some stk := by
  induction sb with
  | nil => simp at h
  | cons s rest ih =>
      rw [List.flatten_cons, List.nodup_append] at hnd
      by_cases hcmem : c ∈ s
      · rw [List.find?_cons_of_pos _ (by simpa using hcmem)] at h
        have hsk : s = stk := Option.some.inj h
        subst hsk
        rw [List.find?_cons_of_pos _ (by simpa using hd)]
      · rw [List.find?_cons_of_neg _ (by simpa using hcmem)] at h
        have hmem : stk ∈ rest := List.mem_of_find?_eq_some h
        have hdres : d ∈ rest.flatten := List.mem_flatten.mpr ⟨stk, hmem, hd⟩
        have hds : d ∉ s := fun hds => hnd.2.2 hds hdres
        rw [List.find?_cons_of_neg _ (by simpa using hds)]
        exact ih hnd.2.1 h

/-- The Steckerbrett function is an involution on all characters. -/
theorem plugFun_invol (sb : List (List Char))
    (hlen2 : ∀ stk ∈ sb, stk.length = 2) (hnd : sb.flatten.Nodup)
    (c : Char) : plugFun sb (plugFun sb c) = c := by
  cases hf : sb.find? (fun stk => decide (c ∈ stk)) with
  | none =>
      have h1 : plugFun sb c = c := by unfold plugFun; rw [hf]
      rw [h1]
      exact h1
  | some stk =>
      have hstk : stk ∈ sb := List.mem_of_find?_eq_some hf
      have hcs : c ∈ stk := by simpa using List.find?_some hf
      obtain ⟨d, hfil, hdm, hdc, hfil2⟩ := pair_filter_partner stk
        (hlen2 stk hstk) (nodup_of_mem_flatten_nodup sb hnd stk hstk) c hcs
      have h1 : plugFun sb c = d := by
        unfold plugFun
        rw [hf]
        change (stk.filter (fun x => decide (x ≠ c))).headD c = d
        rw [hfil]
        rfl
      have hfd : sb.find? (fun s => decide (d ∈ s)) = some stk :=
        find?_pair_partner sb hnd c d stk hf hdm
      have h2 : plugFun sb d = c := by
        unfold plugFun
        rw [hfd]
        change (stk.filter (fun x => decide (x ≠ d))).headD d = c
        rw [hfil2]
        rfl
      rw [h1, h2]

/-- The reverse Steckerbrett application appends exactly the partner. -/
theorem plugBack_eq (sb : List (List Char))
    (hlen2 : ∀ stk ∈ sb, stk.length = 2) (hnd : sb.flatten.Nodup)
    (c : Char) : plugBack sb c = [plugFun sb c] := by
  unfold plugBack plugFun
  cases hf : sb.find? (fun stk => decide (c ∈ stk)) with
  | none => rfl
  | some stk =>
      have hstk : stk ∈ sb := List.mem_of_find?_eq_some hf
      have hcs : c ∈ stk := by simpa using List.find?_some hf
      obtain ⟨d, hfil, _, _, _⟩ := pair_filter_partner stk
        (hlen2 stk hstk) (nodup_of_mem_flatten_nodup sb hnd stk hstk) c hcs
      change stk.filter (fun x => decide (x ≠ c)) =
        [(stk.filter (fun x => decide (x ≠ c))).headD c]
      rw [hfil]
      rfl

/-- The forward Steckerbrett pass computes the index of `plugFun`, which
stays inside the alphabet. -/
theorem plugLexFwd_spec (n : Nat) (h26 : n ≤ 26) (sb : List (List Char))
    (hlen2 : ∀ stk ∈ sb, stk.length = 2) (hnd : sb.flatten.Nodup)
    (hmem : ∀ stk ∈ sb, ∀ c ∈ stk, c ∈ azList n)
    (c : Char) (v : Nat) (hv : v < n) (hc : c = azChar v) :
    ∃ v2, v2 < n ∧ plugFun sb c = azChar v2 ∧
      plugLexFwd sb c ((v : Nat) : Int) = some ((v2 : Nat) : Int) := by
  unfold plugFun plugLexFwd
  cases hf : sb.find? (fun stk => decide (c ∈ stk)) with
  | none => exact ⟨v, hv, hc, rfl⟩
  | some stk =>
      have hstk : stk ∈ sb := List.mem_of_find?_eq_some hf
      have hcs : c ∈ stk := by simpa using List.find?_some hf
      obtain ⟨d, hfil, hdm, hdc, _⟩ := pair_filter_partner stk
        (hlen2 stk hstk) (nodup_of_mem_flatten_nodup sb hnd stk hstk) c hcs
      have hdaz : d ∈ azList n := hmem stk hstk d hdm
      obtain ⟨v2, hv2, rfl⟩ := (mem_azList n h26 d).mp hdaz
      refine ⟨v2, hv2, ?_, ?_⟩
      · change (stk.filter (fun x => decide (x ≠ c))).headD c = azChar v2
        rw [hfil]
        rfl
      · change (pyOrd1 (stk.filter (fun x => decide (x ≠ c)))).map
          (fun o => o - 65) = some ((v2 : Nat) : Int)
        rw [hfil]
        unfold pyOrd1
        simp only [Option.map_some']
        rw [azChar_toNat v2 (by omega)]
        congr 1
        push_cast
        ring

/-- A reflector that is a permutation of the alphabet maps positions below
`n` to positions below `n`, by the very letter `ukwPos` computes. -/
theorem ukw_spec (n : Nat) (h26 : n ≤ 26) (u : List Char)
    (hperm : u.Perm (azList n)) (i : Nat) (hi : i < n) :
    ukwPos u i < n ∧ u[i]? = some (azChar (ukwPos u i)) := by
  have hlen : u.length = n := by rw [hperm.length_eq, azList_length n h26]
  have hin : i < u.length := by omega
  have hmem : u[i] ∈ azList n := hperm.subset (List.getElem_mem hin)
  obtain ⟨v, hv, hvc⟩ := (mem_azList n h26 _).mp hmem
  have hup : ukwPos u i = v := by
    rw [ukwPos, List.getD_eq_getElem?_getD, List.getElem?_eq_getElem hin]
    simp only [Option.getD_some]
    rw [hvc, azChar_toNat v (by omega)]
    omega
  refine ⟨by omega, ?_⟩
  rw [List.getElem?_eq_getElem hin, hvc, hup]

/-- The forward rotor pass computes `fwdPos` and stays below `n`. -/
theorem rotorFwd_fold (n : Nat) (hn : 0 < n) (h26 : n ≤ 26)
    (ws : List (List Int)) (hws : ∀ w ∈ ws, GoodW n w) (v : Nat)
    (hv : v < n) :
    (ws.map (mkCurr (azList n))).foldlM rotorFwdStep ((v : Nat) : Int) =
      some ((fwdPos n ws v : Nat) : Int) ∧ fwdPos n ws v < n := by
  induction ws generalizing v with
  | nil => exact ⟨rfl, by simpa [fwdPos] using hv⟩
  | cons w t ih =>
      have hwg : GoodW n w := hws w (by simp)
      have hstep : rotorFwdStep ((v : Nat) : Int) (mkCurr (azList n) w) =
          some ((fwdP n w v : Nat) : Int) := by
        unfold rotorFwdStep pyGet
        rw [if_pos (by omega)]
        have h2 : ((v : Nat) : Int).toNat = v := by omega
        rw [h2, mkCurr_getElem? n h26 w v (by rw [hwg.1]; omega)]
        simp only [Option.map_some']
        have h3 : ((azChar (fwdP n w v)).toNat : Int) - 65 =
            ((fwdP n w v : Nat) : Int) := by
          rw [azChar_toNat (fwdP n w v)
            (by have := fwdP_lt n hn w v; omega)]
          push_cast
          ring
        rw [h3]
      have hfv : fwdP n w v < n := fwdP_lt n hn w v
      have ih2 := ih (fun w2 hw2 => hws w2 (by simp [hw2])) (fwdP n w v) hfv
      simp only [List.map_cons, List.foldlM_cons, hstep, Option.bind_eq_bind,
        Option.some_bind]
      exact ih2

/-- The reverse rotor pass computes the `invP`-fold and stays below `n`. -/
theorem rotorRev_fold (n : Nat) (hn : 0 < n) (h26 : n ≤ 26)
    (rs : List (List Int)) (hrs : ∀ w ∈ rs, GoodW n w) (v : Nat)
    (hv : v < n) :
    (rs.map (mkCurr (azList n))).foldlM (rotorRevStep (azList n))
        (azChar v, ((v : Nat) : Int)) =
      some (azChar (rs.foldl (fun x w => invP n w x) v),
        ((rs.foldl (fun x w => invP n w x) v : Nat) : Int)) ∧
      rs.foldl (fun x w => invP n w x) v < n := by
  induction rs generalizing v with
  | nil => exact ⟨rfl, by simpa using hv⟩
  | cons w t ih =>
      have hwg : GoodW n w := hrs w (by simp)
      obtain ⟨hiv, hfi⟩ := invP_spec n hn h26 w hwg v hv
      have hidx : pyIndex (mkCurr (azList n) w) (azChar v) =
          some (invP n w v) := by
        have h2 := pyIndex_mkCurr_eq n hn h26 w hwg (invP n w v) hiv
        rwa [hfi] at h2
      have hstep : rotorRevStep (azList n) (azChar v, ((v : Nat) : Int))
          (mkCurr (azList n) w) =
          some (azChar (invP n w v), ((invP n w v : Nat) : Int)) := by
        unfold rotorRevStep
        rw [hidx, Option.some_bind]
        unfold pyGet
        rw [if_pos (by omega)]
        have h2 : ((invP n w v : Nat) : Int).toNat = invP n w v := by omega
        rw [h2, azList_getElem? n (invP n w v) h26 hiv, Option.map_some']
        have h3 : ((azChar (invP n w v)).toNat : Int) - 65 =
            ((invP n w v : Nat) : Int) := by
          rw [azChar_toNat (invP n w v) (by omega)]
          push_cast
          ring
        rw [h3]
      have ih2 := ih (fun w2 hw2 => hrs w2 (by simp [hw2])) (invP n w v) hiv
      simp only [List.map_cons, List.foldlM_cons, hstep, Option.bind_eq_bind,
        Option.some_bind]
      exact ih2

/-- The position-level signal path is bounded and involutive. -/
theorem posT_spec (n : Nat) (hn : 0 < n) (h26 : n ≤ 26)
    (ws : List (List Int)) (hws : ∀ w ∈ ws, GoodW n w) (u : List Char)
    (hulen : ∀ i, i < n → ukwPos u i < n)
    (huinv : ∀ i, i < n → ukwPos u (ukwPos u i) = i)
    (v : Nat) (hv : v < n) :
    posT n ws u v < n ∧ posT n ws u (posT n ws u v) = v := by
  induction ws generalizing v with
  | nil =>
      unfold posT revPos fwdPos
      simp only [List.reverse_nil, List.foldl_nil]
      exact ⟨hulen v hv, huinv v hv⟩
  | cons w t ih =>
      have hwg : GoodW n w := hws w (by simp)
      have hred : ∀ x, posT n (w :: t) u x =
          invP n w (posT n t u (fwdP n w x)) := by
        intro x
        unfold posT revPos fwdPos
        simp only [List.reverse_cons, List.foldl_append, List.foldl_cons,
          List.foldl_nil]
      have htS : ∀ w2 ∈ t, GoodW n w2 := fun w2 h => hws w2 (by simp [h])
      have hfx : fwdP n w v < n := fwdP_lt n hn w v
      obtain ⟨hlt1, hinv1⟩ := ih htS (fwdP n w v) hfx
      constructor
      · rw [hred v]
        exact (invP_spec n hn h26 w hwg _ hlt1).1
      · rw [hred v, hred (invP n w (posT n t u (fwdP n w v)))]
        rw [(invP_spec n hn h26 w hwg _ hlt1).2, hinv1,
          invP_fwdP n hn h26 w hwg v hv]

/-- The Steckerbrett function stays inside the alphabet. -/
theorem plugFun_mem (n : Nat) (h26 : n ≤ 26) (sb : List (List Char))
    (hmem : ∀ stk ∈ sb, ∀ c ∈ stk, c ∈ azList n) (c : Char)
    (hc : c ∈ azList n) : plugFun sb c ∈ azList n := by
  unfold plugFun
  cases hf : sb.find? (fun stk => decide (c ∈ stk)) with
  | none => exact hc
  | some stk =>
      have hstk : stk ∈ sb := List.mem_of_find?_eq_some hf
      change (stk.filter (fun x => decide (x ≠ c))).headD c ∈ azList n
      cases hfil : stk.filter (fun x => decide (x ≠ c)) with
      | nil => exact hc
      | cons d t =>
          have hd : d ∈ stk := by
            have h2 : d ∈ stk.filter (fun x => decide (x ≠ c)) := by
              rw [hfil]
              simp
            exact List.mem_of_mem_filter h2
          simp only [List.headD_cons]
          exact hmem stk hstk d hd

/-- Uppercasing fixes alphabet characters. -/
theorem pyUpper_az (n : Nat) (h26 : n ≤ 26) (c : Char) (hc : c ∈ azList n) :
    pyUpper c = c := by
  obtain ⟨v, hv, rfl⟩ := (mem_azList n h26 c).mp hc
  unfold pyUpper
  rw [if_neg (by rw [azChar_toNat v (by omega)]; omega)]

/-- Processing one alphabet character: the loop body succeeds, outputs
exactly `charT`, steps the rotors independently of the character, and stays
inside the alphabet. -/
theorem encodeStep_alpha (n : Nat) (hn : 0 < n) (h26 : n ≤ 26)
    (ukw : List Char) (hperm : ukw.Perm (azList n))
    (sb : List (List Char)) (hlen2 : ∀ stk ∈ sb, stk.length = 2)
    (hnd : sb.flatten.Nodup) (hmem : ∀ stk ∈ sb, ∀ c ∈ stk, c ∈ azList n)
    (rk : List Int) (hrk : rk.length = 3)
    (st : List (List Int) × List Int) (hst : StOK n st)
    (c : Char) (hc : c ∈ azList n) :
    ∃ st2, stepWalzen rk st.1 st.2 = some st2 ∧ StOK n st2 ∧
      encodeStep (azList n) ukw sb rk st c =
        some (st2, [charT n st.1 ukw sb c]) ∧
      charT n st.1 ukw sb c ∈ azList n := by
  obtain ⟨v, hv, rfl⟩ := (mem_azList n h26 c).mp hc
  obtain ⟨st2, hstep, hst2⟩ :=
    stepWalzen_ok n hn rk hrk st.1 st.2 hst.1 hst.2.1 hst.2.2
  obtain ⟨v1, hv1, hpf, hplex⟩ :=
    plugLexFwd_spec n h26 sb hlen2 hnd hmem (azChar v) v hv rfl
  obtain ⟨hffold, hfb⟩ := rotorFwd_fold n hn h26 st.1 hst.2.1 v1 hv1
  obtain ⟨hub, hug⟩ := ukw_spec n h26 ukw hperm (fwdPos n st.1 v1) hfb
  have hlex : ((azChar v).toNat : Int) - 65 = ((v : Nat) : Int) := by
    rw [azChar_toNat v (by omega)]
    push_cast
    ring
  have hplex2 : plugLexFwd sb (azChar v) (((azChar v).toNat : Int) - 65) =
      some ((v1 : Nat) : Int) := by
    rw [hlex]
    exact hplex
  have hugget : pyGet ukw ((fwdPos n st.1 v1 : Nat) : Int) =
      some (azChar (ukwPos ukw (fwdPos n st.1 v1))) := by
    unfold pyGet
    rw [if_pos (by omega)]
    have h2 : ((fwdPos n st.1 v1 : Nat) : Int).toNat = fwdPos n st.1 v1 := by
      omega
    rw [h2]
    exact hug
  have hpairsnd : ((azChar (ukwPos ukw (fwdPos n st.1 v1))).toNat : Int) - 65 =
      ((ukwPos ukw (fwdPos n st.1 v1) : Nat) : Int) := by
    rw [azChar_toNat _ (by omega)]
    push_cast
    ring
  have hrevrs : (st.1.map (mkCurr (azList n))).reverse =
      st.1.reverse.map (mkCurr (azList n)) := by
    simp
  obtain ⟨hrfold, hv4b⟩ := rotorRev_fold n hn h26 st.1.reverse
    (fun w h => hst.2.1 w (List.mem_reverse.mp h))
    (ukwPos ukw (fwdPos n st.1 v1)) hub
  set v4 := st.1.reverse.foldl (fun x w => invP n w x)
    (ukwPos ukw (fwdPos n st.1 v1)) with hv4
  have hch : Char.ofNat ((((v4 : Nat) : Int)) + 65).toNat = azChar v4 := by
    have h2 : ((((v4 : Nat) : Int)) + 65).toNat = v4 + 65 := by omega
    rw [azChar, h2]
  have hplugb : plugBack sb (azChar v4) = [plugFun sb (azChar v4)] :=
    plugBack_eq sb hlen2 hnd _
  have hcharT : charT n st.1 ukw sb (azChar v) = plugFun sb (azChar v4) := by
    rw [charT, hpf, posOf_azChar v1 (by omega)]
    rfl
  refine ⟨st2, hstep, hst2, ?_, ?_⟩
  · simp only [encodeStep]
    rw [if_pos (by rw [hlex]; omega :
      (0 : Int) ≤ ((azChar v).toNat : Int) - 65 ∧
        ((azChar v).toNat : Int) - 65 ≤ 25)]
    simp only [hplex2, Option.some_bind, hffold, hugget, hpairsnd, hrevrs,
      hrfold, hch, hplugb, hstep, Option.map_some']
    rw [hcharT]
  · rw [hcharT]
    refine plugFun_mem n h26 sb hmem _ ?_
    rw [mem_azList n h26]
    exact ⟨v4, hv4b, rfl⟩

/-- The per-character transformation is an involution on the alphabet. -/
theorem charT_invol (n : Nat) (hn : 0 < n) (h26 : n ≤ 26)
    (ws : List (List Int)) (hws : ∀ w ∈ ws, GoodW n w)
    (ukw : List Char) (hperm : ukw.Perm (azList n))
    (huinv : ∀ i, i < n → ukwPos ukw (ukwPos ukw i) = i)
    (sb : List (List Char)) (hlen2 : ∀ stk ∈ sb, stk.length = 2)
    (hnd : sb.flatten.Nodup) (hmem : ∀ stk ∈ sb, ∀ c ∈ stk, c ∈ azList n)
    (c : Char) (hc : c ∈ azList n) :
    charT n ws ukw sb (charT n ws ukw sb c) = c := by
  obtain ⟨v, hv, rfl⟩ := (mem_azList n h26 c).mp hc
  obtain ⟨v1, hv1, hpf, _⟩ :=
    plugLexFwd_spec n h26 sb hlen2 hnd hmem (azChar v) v hv rfl
  have hub : ∀ i, i < n → ukwPos ukw i < n :=
    fun i hi => (ukw_spec n h26 ukw hperm i hi).1
  obtain ⟨hT1lt, hT1inv⟩ := posT_spec n hn h26 ws hws ukw hub huinv v1 hv1
  have hin : charT n ws ukw sb (azChar v) =
      plugFun sb (azChar (posT n ws ukw v1)) := by
    rw [charT, hpf, posOf_azChar v1 (by omega)]
  rw [hin, charT, plugFun_invol sb hlen2 hnd,
    posOf_azChar (posT n ws ukw v1) (by omega), hT1inv, ← hpf]
  exact plugFun_invol sb hlen2 hnd (azChar v)

/-- Helper: the loop body skips characters outside the A-Z code range. -/
theorem encodeStep_skip_of_nonalpha (alphabet ukw : List Char)
    (sb : List (List Char)) (rk : List Int)
    (st : List (List Int) × List Int) (c : Char)
    (h : c.toNat < 65 ∨ 90 < c.toNat) :
    encodeStep alphabet ukw sb rk st c = some (st, []) := by
  unfold encodeStep
  rw [if_neg]
  rintro ⟨h0, h25⟩
  omega

/-- Uppercasing keeps a character list inside the alphabet fixed. -/
theorem mapUpper_az (n : Nat) (h26 : n ≤ 26) (l : List Char)
    (hl : ∀ c ∈ l, c ∈ azList n) : l.map pyUpper = l := by
  induction l with
  | nil => rfl
  | cons a t ih =>
      rw [List.map_cons, pyUpper_az n h26 a (hl a (by simp)),
        ih (fun x hx => hl x (by simp [hx]))]

/-- The message loop on an all-alphabet message succeeds, stays inside the
alphabet, and running it again on the output from the same start state
recovers the message. -/
theorem encGo_invol (n : Nat) (hn : 0 < n) (h26 : n ≤ 26)
    (ukw : List Char) (hperm : ukw.Perm (azList n))
    (huinv : ∀ i, i < n → ukwPos ukw (ukwPos ukw i) = i)
    (sb : List (List Char)) (hlen2 : ∀ stk ∈ sb, stk.length = 2)
    (hnd : sb.flatten.Nodup) (hmem : ∀ stk ∈ sb, ∀ c ∈ stk, c ∈ azList n)
    (rk : List Int) (hrk : rk.length = 3) :
    ∀ (msg : List Char) (st : List (List Int) × List Int), StOK n st →
      (∀ c ∈ msg, c ∈ azList n) →
      ∃ st2 out, encGo (azList n) ukw sb rk st msg = some (st2, out) ∧
        (∀ c ∈ out, c ∈ azList n) ∧
        encGo (azList n) ukw sb rk st out = some (st2, msg) := by
  intro msg
  induction msg with
  | nil =>
      intro st hst _
      exact ⟨st, [], rfl, by simp, rfl⟩
  | cons c cs ih =>
      intro st hst hmsg
      have hcaz : c ∈ azList n := hmsg c (by simp)
      obtain ⟨st2, hstep, hst2, hsc, hmem4⟩ :=
        encodeStep_alpha n hn h26 ukw hperm sb hlen2 hnd hmem rk hrk st hst
          c hcaz
      obtain ⟨st3, out, hgo, houtmem, hback⟩ :=
        ih st2 hst2 (fun x hx => hmsg x (by simp [hx]))
      obtain ⟨st2b, hstepb, _, hscb, _⟩ :=
        encodeStep_alpha n hn h26 ukw hperm sb hlen2 hnd hmem rk hrk st hst
          (charT n st.1 ukw sb c) hmem4
      have hsame : st2b = st2 := by
        rw [hstep] at hstepb
        exact (Option.some.inj hstepb).symm
      rw [hsame] at hscb
      rw [charT_invol n hn h26 st.1 hst.2.1 ukw hperm huinv sb hlen2 hnd
        hmem c hcaz] at hscb
      refine ⟨st3, charT n st.1 ukw sb c :: out, ?_, ?_, ?_⟩
      · simp only [encGo, hsc, Option.some_bind, hgo, Option.map_some']
        rfl
      · intro x hx
        rcases List.mem_cons.mp hx with rfl | hx2
        · exact hmem4
        · exact houtmem x hx2
      · simp only [encGo, hscb, Option.some_bind, hback, Option.map_some']
        rfl

/-- The message loop on a message of alphabet characters and non-A-Z
characters succeeds and emits one character per alphabetic input. -/
theorem encGo_count (n : Nat) (hn : 0 < n) (h26 : n ≤ 26)
    (ukw : List Char) (hperm : ukw.Perm (azList n))
    (sb : List (List Char)) (hlen2 : ∀ stk ∈ sb, stk.length = 2)
    (hnd : sb.flatten.Nodup) (hmem : ∀ stk ∈ sb, ∀ c ∈ stk, c ∈ azList n)
    (rk : List Int) (hrk : rk.length = 3) :
    ∀ (msg : List Char) (st : List (List Int) × List Int), StOK n st →
      (∀ c ∈ msg, c ∈ azList n ∨ c.toNat < 65 ∨ 90 < c.toNat) →
      ∃ st2 out, encGo (azList n) ukw sb rk st msg = some (st2, out) ∧
        out.length = msg.countP
          (fun c => decide (65 ≤ c.toNat) && decide (c.toNat ≤ 90)) := by
  intro msg
  induction msg with
  | nil =>
      intro st hst _
      exact ⟨st, [], rfl, rfl⟩
  | cons c cs ih =>
      intro st hst hmsg
      rcases hmsg c (by simp) with hcaz | hout
      · obtain ⟨st2, hstep, hst2, hsc, hmem4⟩ :=
          encodeStep_alpha n hn h26 ukw hperm sb hlen2 hnd hmem rk hrk st hst
            c hcaz
        obtain ⟨st3, out, hgo, hlen⟩ :=
          ih st2 hst2 (fun x hx => hmsg x (by simp [hx]))
        refine ⟨st3, charT n st.1 ukw sb c :: out, ?_, ?_⟩
        · simp only [encGo, hsc, Option.some_bind, hgo, Option.map_some']
          rfl
        · rw [List.countP_cons]
          obtain ⟨v, hv, rfl⟩ := (mem_azList n h26 c).mp hcaz
          have hpred : (decide (65 ≤ (azChar v).toNat) &&
              decide ((azChar v).toNat ≤ 90)) = true := by
            rw [azChar_toNat v (by omega)]
            simp only [Bool.and_eq_true, decide_eq_true_eq]
            omega
          rw [hpred]
          simp [hlen]
      · have hskip := encodeStep_skip_of_nonalpha (azList n) ukw sb rk st c
          hout
        obtain ⟨st3, out, hgo, hlen⟩ :=
          ih st hst (fun x hx => hmsg x (by simp [hx]))
        refine ⟨st3, out, ?_, ?_⟩
        · simp only [encGo, hskip, Option.some_bind, hgo, Option.map_some']
          rfl
        · rw [List.countP_cons]
          have hpred : (decide (65 ≤ c.toNat) && decide (c.toNat ≤ 90)) =
              false := by
            rcases hout with h | h
            · rw [decide_eq_false (by omega : ¬ 65 ≤ c.toNat), Bool.false_and]
            · rw [decide_eq_false (by omega : ¬ c.toNat ≤ 90), Bool.and_false]
          rw [hpred]
          simpa using hlen

/-- C1 (amended): for every valid three-rotor configuration over an initial
segment of the upper-case Latin alphabet and every base position, encoding
the encoding of a message of alphabet characters gives the message back. -/
theorem C1_amended_involution (m : Enigma) (n : Nat) (hv : ValidCfg m n)
    (msg : List Char) (hmsg : ∀ c ∈ msg, c ∈ m.alphabet) :
    (m.encode msg).bind m.encode = some msg := by
  have hmsgaz : ∀ c ∈ msg, c ∈ azList n := by
    intro c hc
    have h2 := hmsg c hc
    rwa [hv.halpha] at h2
  have hukwperm : m.umkehrwalze.Perm (azList n) := by
    have h2 := hv.hukw_perm
    rwa [hv.halpha] at h2
  have hsbmem : ∀ stk ∈ m.steckerbrett, ∀ c ∈ stk, c ∈ azList n := by
    intro stk hstk c hc
    have h2 := hv.hsb_mem stk hstk c hc
    rwa [hv.halpha] at h2
  obtain ⟨st, hsetup, hst⟩ := encodeSetup_ok m n hv
  obtain ⟨st2, out, hgo, houtmem, hback⟩ :=
    encGo_invol n hv.hn hv.h26 m.umkehrwalze hukwperm hv.hukw_inv
      m.steckerbrett hv.hsb_len hv.hsb_nodup hsbmem m.ringkerben hv.hrk
      msg st hst hmsgaz
  have henc1 : m.encode msg = some out := by
    unfold Enigma.encode
    rw [hsetup, Option.some_bind, hv.halpha,
      mapUpper_az n hv.h26 msg hmsgaz, hgo, Option.map_some']
  have henc2 : m.encode out = some msg := by
    unfold Enigma.encode
    rw [hsetup, Option.some_bind, hv.halpha,
      mapUpper_az n hv.h26 out houtmem, hback, Option.map_some']
  rw [henc1, Option.some_bind, henc2]

/-- C3 (amended): on a valid configuration, encoding succeeds for any ASCII
message whose upper-cased characters are alphabet letters or outside A-Z,
and the output length is the number of A-Z characters of the upper-cased
input - dropped characters contribute nothing.  The ASCII hypothesis marks
the scope on which the per-character model of `upper` coincides with
Python's full Unicode case mapping (outside ASCII, `upper` can expand one
character into several and the length equation changes). -/
theorem C3_amended_length (m : Enigma) (n : Nat) (hv : ValidCfg m n)
    (msg : List Char)
    (hascii : ∀ c ∈ msg, c.toNat < 128)
    (hmsg : ∀ c ∈ msg, pyUpper c ∈ m.alphabet ∨
      (pyUpper c).toNat < 65 ∨ 90 < (pyUpper c).toNat) :
    ∃ out, m.encode msg = some out ∧
      out.length = (msg.map pyUpper).countP
        (fun c => decide (65 ≤ c.toNat) && decide (c.toNat ≤ 90)) := by
  have hukwperm : m.umkehrwalze.Perm (azList n) := by
    have h2 := hv.hukw_perm
    rwa [hv.halpha] at h2
  have hsbmem : ∀ stk ∈ m.steckerbrett, ∀ c ∈ stk, c ∈ azList n := by
    intro stk hstk c hc
    have h2 := hv.hsb_mem stk hstk c hc
    rwa [hv.halpha] at h2
  have hmu : ∀ c ∈ msg.map pyUpper, c ∈ azList n ∨
      c.toNat < 65 ∨ 90 < c.toNat := by
    intro c hc
    obtain ⟨a, ha, rfl⟩ := List.mem_map.mp hc
    rcases hmsg a ha with h | h
    · left
      rwa [hv.halpha] at h
    · right
      exact h
  obtain ⟨st, hsetup, hst⟩ := encodeSetup_ok m n hv
  obtain ⟨st2, out, hgo, hlen⟩ :=
    encGo_count n hv.hn hv.h26 m.umkehrwalze hukwperm
      m.steckerbrett hv.hsb_len hv.hsb_nodup hsbmem m.ringkerben hv.hrk
      (msg.map pyUpper) st hst hmu
  refine ⟨out, ?_, hlen⟩
  unfold Enigma.encode
  rw [hsetup, Option.some_bind, hv.halpha, hgo, Option.map_some']

/-- C1 (amended), witness: the 26-letter doctest machine decodes its own
encoding of ENIGMA. -/
theorem C1_amended_involution_witness :
    (∀ c ∈ "ENIGMA".toList, c ∈ enigma26val.alphabet) ∧
    (enigma26val.encode "ENIGMA".toList).bind enigma26val.encode =
      some "ENIGMA".toList :=
  ⟨by decide, C1_amended_involution enigma26val 26
    ⟨by decide, by decide, by decide, by decide, by decide, by decide,
     by decide, by decide, by decide, by decide, by decide, by decide,
     by decide, by decide⟩ "ENIGMA".toList (by decide)⟩

/-- C3 (amended), witness: the doctest message with its space, 15 characters
in, 14 characters out. -/
theorem C3_amended_length_witness :
    (∀ c ∈ "QMJIDO MZWZJFJR".toList, c.toNat < 128) ∧
    (∀ c ∈ "QMJIDO MZWZJFJR".toList, pyUpper c ∈ enigma26val.alphabet ∨
      (pyUpper c).toNat < 65 ∨ 90 < (pyUpper c).toNat) ∧
    ∃ out, enigma26val.encode "QMJIDO MZWZJFJR".toList = some out ∧
      out.length = ("QMJIDO MZWZJFJR".toList.map pyUpper).countP
        (fun c => decide (65 ≤ c.toNat) && decide (c.toNat ≤ 90)) :=
  ⟨by decide, by decide, C3_amended_length enigma26val 26
    ⟨by decide, by decide, by decide, by decide, by decide, by decide,
     by decide, by decide, by decide, by decide, by decide, by decide,
     by decide, by decide⟩ "QMJIDO MZWZJFJR".toList (by decide) (by decide)⟩
